import Mathlib

/-!
Shallow embedding of the search subsystem of the `papr` paper-management
tool (`src/search.rs`), together with theorems checking the natural-language
specification against it.

Texts, paths and queries are modelled as `List Char` (Rust iterates strings
by Unicode scalar values via `.chars()`, which `List Char` mirrors exactly).
External collaborators (the record store, the filesystem, the PDF text
extractor) are inputs: the store is a list of rows in iteration order, the
filesystem and extractor are functions packaged in an environment record.
The external `nucleo` fuzzy-matching crate is modelled by its documented
acceptance semantics: a fuzzy atom matches a haystack iff every needle
character occurs in the haystack in order (a subsequence), with case
handling per the configured `CaseMatching` mode; Unicode normalization is
modelled as the identity and case folding restricted to ASCII, which is
faithful on every input considered here.
-/

namespace Papr

/-- Texts are lists of Unicode scalar values. -/
abbrev Str := List Char

/-- Model of Rust `char::is_whitespace` restricted to the ASCII whitespace
characters (the Unicode-only whitespace code points play no role in any
claim considered here). -/
def isWS (c : Char) : Bool :=
  c = ' ' || c = '\t' || c = '\n' || c = '\r' || c = '\x0b' || c = '\x0c'

/-- Model of Rust `str::trim`: remove leading and trailing whitespace. -/
def trim (l : Str) : Str :=
  ((l.dropWhile isWS).reverse.dropWhile isWS).reverse

/-- Model of Rust `str::split(sep)` for a single-character separator:
`n` separators yield `n + 1` pieces, empty pieces included. -/
def splitCh (sep : Char) : Str → List Str
  | [] => [[]]
  | c :: cs =>
    match splitCh sep cs with
    | [] => [[]]
    | s :: ss => if c = sep then [] :: s :: ss else (c :: s) :: ss

/-- ASCII lowercase folding, modelling the case folding the matching
engine applies to needle and haystack. -/
def lowerCh (c : Char) : Char :=
  if 65 ≤ c.toNat ∧ c.toNat ≤ 90 then Char.ofNat (c.toNat + 32) else c

/-- Fold a whole text to lowercase. -/
def lower (l : Str) : Str := l.map lowerCh

/-- Does the text contain an ASCII uppercase character? Decides smart-case
matching. -/
def hasUpper (l : Str) : Bool := l.any (fun c => 65 ≤ c.toNat ∧ c.toNat ≤ 90)

/-- `isSubseq needle hay`: every character of `needle` occurs in `hay` in
order (not necessarily contiguously). This is the acceptance condition of a
`nucleo` fuzzy atom. -/
def isSubseq : Str → Str → Bool
  | [], _ => true
  | _ :: _, [] => false
  | n :: ns, h :: hs => if n = h then isSubseq ns hs else isSubseq (n :: ns) hs

/-- Acceptance of the title-search atom (`Atom::new(query, CaseMatching::Smart,
Normalization::Smart, AtomKind::Fuzzy, false)` at src/search.rs:37): the query
must be a subsequence of the title, case-insensitively unless the query
contains an uppercase character (smart case). -/
def atomAccepts (q t : Str) : Bool :=
  if hasUpper q then isSubseq q t else isSubseq (lower q) (lower t)

/-- Split a query into its whitespace-separated words, empties dropped;
a `nucleo` pattern is the conjunction of one fuzzy atom per word. -/
def queryWords (q : Str) : List Str :=
  (splitCh ' ' q).filter (fun w => w ≠ [])

/-- Acceptance of the full-text pattern (`pattern.reparse(0, query,
CaseMatching::Ignore, Normalization::Smart, false)` at src/search.rs:128):
every word of the query must match the page case-insensitively. -/
def patternAccepts (q p : Str) : Bool :=
  (queryWords q).all (fun w => isSubseq (lower w) (lower p))

/-- Model of Rust `Path::file_name` on the paths stored in the record store:
drop empty and `.` components, take the last component; `none` when no
component remains or the last one is `..`. -/
def fileName (p : Str) : Option Str :=
  match ((splitCh '/' p).filter (fun c => c ≠ [] ∧ c ≠ ['.'])).getLast? with
  | none => none
  | some c => if c = ['.', '.'] then none else some c

/-- Model of Rust `Path::join` for a relative file name. -/
def joinPath (b f : Str) : Str :=
  if b = [] then f
  else if b.getLast? = some '/' then b ++ f else b ++ '/' :: f

/-- A row of the `papers` table, in the order the record store yields rows
(`SELECT id, canonical_base_path, url FROM papers`, src/search.rs:33-35). -/
structure PaperRow where
  id : Nat
  canonical_base_path : Str
  url : Str
deriving DecidableEq, Repr

/-- Result record of the title search (src/search.rs:11-17). -/
structure PaperMatch where
  id : Nat
  canonical_base_path : Str
  url : Str
  score : Nat
deriving DecidableEq, Repr

/-- The title derived from a stored path: the final path segment, or the
empty text when `Path::file_name` yields nothing (src/search.rs:53-57). -/
def derivedTitle (p : Str) : Str := (fileName p).getD []

/-- The body of the `while` loop of `fuzzy_search_papers`
(src/search.rs:47-72): a row contributes a `PaperMatch` exactly when its
derived title is non-empty and the fuzzy atom accepts the title. The
numeric score assigned by the external engine is abstracted as a function
`score` of query and title; no claim depends on its value. -/
def paperMatchOf (score : Str → Str → Nat) (q : Str) (r : PaperRow) :
    Option PaperMatch :=
  let title := derivedTitle r.canonical_base_path
  if title ≠ [] then
    if atomAccepts q title then
      some ⟨r.id, r.canonical_base_path, r.url, score q title⟩
    else none
  else none

/-- The row loop of `fuzzy_search_papers`, with the `res` vector threaded as
an accumulator exactly as the imperative code pushes into it. -/
def fuzzySearchPapersLoop (score : Str → Str → Nat) (q : Str) :
    List PaperRow → List PaperMatch → List PaperMatch
  | [], res => res
  | r :: rs, res =>
    match paperMatchOf score q r with
    | some m => fuzzySearchPapersLoop score q rs (res ++ [m])
    | none => fuzzySearchPapersLoop score q rs res

/-- `fuzzy_search_papers` (src/search.rs:29-75): iterate the store's rows,
pushing at most one match per row, and return the vector unchanged. -/
def fuzzy_search_papers (score : Str → Str → Nat) (q : Str)
    (rows : List PaperRow) : List PaperMatch :=
  fuzzySearchPapersLoop score q rows []

/-- Result record of the full-text search (src/search.rs:77-83). -/
structure PdfMatch where
  title : Str
  page : Nat
  score : Nat
  excerpt : Str
deriving DecidableEq, Repr

/-- External collaborators of `fuzzy_search_pdfs`: the filesystem
(`Path::exists`, `std::fs::read`) and the PDF text extractor
(`pdf_extract::extract_text_from_mem`). Bytes are modelled as `List Nat`;
errors as messages. -/
structure PdfEnv where
  pdfExists : Str → Bool
  readPdf : Str → Except Str (List Nat)
  extractText : List Nat → Except Str Str

/-- The filesystem location of a row's PDF asset:
`base_path.join("paper.pdf")` (src/search.rs:94). -/
def pdfPathOf (base : Str) : Str := joinPath base "paper.pdf".toList

/-- Replace every line-break by a space, as in `.replace('\n', " ")`
(src/search.rs:148). -/
def replaceNl (l : Str) : Str := l.map (fun c => if c = '\n' then ' ' else c)

/-- The excerpt body before the truncation suffix: first 120 scalar values
of the matched text, line-breaks replaced, then trimmed
(src/search.rs:143-148 and the `.trim()` inside line 154). -/
def excerptBody (t : Str) : Str := trim (replaceNl (t.take 120))

/-- The emitted excerpt: `format!("{}...", excerpt.trim())`
(src/search.rs:154). -/
def excerptOf (t : Str) : Str := excerptBody t ++ "...".toList

/-- Is a page skipped by the blank filter `page_text.trim().is_empty()`
(src/search.rs:116)? -/
def isBlank (p : Str) : Bool := trim p = []

/-- The `PdfMatch` pushed for a matching page at zero-based split index `i`
(src/search.rs:150-155): 1-indexed page, hardcoded score `0`, excerpt built
from the matched item's text (the whole page). -/
def pageMatchMk (title : Str) (i : Nat) (p : Str) : PdfMatch :=
  ⟨title, i + 1, 0, excerptOf p⟩

/-- The page loop `for (i, page_text) in out.split('\u{000c}').enumerate()`
(src/search.rs:115-157), with `i` starting at `start`: blank pages are
skipped (the index still advances), and a page yields a match exactly when
the engine's snapshot holds a matched item, i.e. when the pattern accepts
the page. -/
def pageMatchesFrom (q title : Str) : Nat → List Str → List PdfMatch
  | _, [] => []
  | i, p :: ps =>
    (if isBlank p then []
     else if patternAccepts q p then [pageMatchMk title i p] else []) ++
    pageMatchesFrom q title (i + 1) ps

/-- All matches of one extracted document text: split on form feed
(src/search.rs:115) and run the page loop from index 0. -/
def pageMatches (q title out : Str) : List PdfMatch :=
  pageMatchesFrom q title 0 (splitCh '\x0c' out)

/-- The body of the row loop of `fuzzy_search_pdfs` (src/search.rs:91-158):
derive the title (`unwrap_or("Unknown")`), skip the row silently when the
PDF asset is absent, otherwise read it and extract its text — either
failure propagating via `?` — and collect the page matches. -/
def processRow (env : PdfEnv) (q : Str) (r : PaperRow) :
    Except Str (List PdfMatch) := do
  let basePath := r.canonical_base_path
  let pdfPath := pdfPathOf basePath
  let title := (fileName basePath).getD "Unknown".toList
  if env.pdfExists pdfPath then do
    let bytes ← env.readPdf pdfPath
    let out ← env.extractText bytes
    pure (pageMatches q title out)
  else
    pure []

/-- The row loop of `fuzzy_search_pdfs`, accumulating `all_matches`; an
error in any row aborts the whole loop, exactly as `?` does. -/
def collectMatches (env : PdfEnv) (q : Str) :
    List PaperRow → Except Str (List PdfMatch)
  | [] => pure []
  | r :: rs => do
    let ms ← processRow env q r
    let rest ← collectMatches env q rs
    pure (ms ++ rest)

/-- Stable descending insertion by score: the inserted element passes over
strictly greater scores and stops before the first element whose score is
not greater, hence before any element of equal score. -/
def insertDesc (x : PdfMatch) : List PdfMatch → List PdfMatch
  | [] => [x]
  | y :: ys => if y.score > x.score then y :: insertDesc x ys else x :: y :: ys

/-- Model of `all_matches.sort_by(|a, b| b.score.cmp(&a.score))`
(src/search.rs:161): Rust's stable sort, rendered as stable insertion sort,
which is observationally identical for a total comparator. -/
def sortByScoreDesc : List PdfMatch → List PdfMatch
  | [] => []
  | x :: xs => insertDesc x (sortByScoreDesc xs)

/-- `fuzzy_search_pdfs` (src/search.rs:85-163): collect matches over the
store's rows, then sort by descending score. -/
def fuzzy_search_pdfs (env : PdfEnv) (q : Str) (rows : List PaperRow) :
    Except Str (List PdfMatch) :=
  (collectMatches env q rows).map sortByScoreDesc

/-- Number of pages of one extracted document text that survive the blank
filter — each such page reaches the `Nucleo::new` call. -/
def countSurviving (out : Str) : Nat :=
  ((splitCh '\x0c' out).filter (fun p => ¬ isBlank p)).length

/-- Observation of the control flow of `fuzzy_search_pdfs`: how many fuzzy
matching engine instances (`Nucleo::new`, src/search.rs:121) one row's
processing constructs. The engine is constructed once per page that
survives the blank filter, after the same skip and error steps as
`processRow`. -/
def engineInstancesRow (env : PdfEnv) (r : PaperRow) : Except Str Nat := do
  let pdfPath := pdfPathOf r.canonical_base_path
  if env.pdfExists pdfPath then do
    let bytes ← env.readPdf pdfPath
    let out ← env.extractText bytes
    pure (countSurviving out)
  else
    pure 0

/-- Total number of fuzzy matching engine instances constructed during one
whole `fuzzy_search_pdfs` call. -/
def engineInstances (env : PdfEnv) : List PaperRow → Except Str Nat
  | [] => pure 0
  | r :: rs => do
    let n ← engineInstancesRow env r
    let rest ← engineInstances env rs
    pure (n + rest)

/-- The extracted text of every row that is processed (rows without a PDF
asset skipped), in iteration order, with the same error propagation as the
search itself. -/
def extractedTexts (env : PdfEnv) : List PaperRow → Except Str (List Str)
  | [] => pure []
  | r :: rs =>
    if env.pdfExists (pdfPathOf r.canonical_base_path) then do
      let bytes ← env.readPdf (pdfPathOf r.canonical_base_path)
      let out ← env.extractText bytes
      let rest ← extractedTexts env rs
      pure (out :: rest)
    else
      extractedTexts env rs

/-- Stated by the specification (§4.3 step 4): a single matching engine
instance is shared across the whole corpus for one query. Recorded here as
the engine count the specification prescribes, to be compared with
`engineInstances`. -/
def specSharedEngineCount : Nat := 1

/-- Modelled from the spec (§4.2): the tag filter. The search functions in
src/src/search.rs take no tag parameter (their `SELECT` reads the whole
`papers` table), while their caller `handle_search` in src/src/lib.rs
passes a `tags: Option<Vec<String>>` — the implementation of the filter is
missing from the snapshot under src/. Following the spec's words: with no
requested tag set every record qualifies; with a requested set a record
qualifies only if it is linked to every requested tag name (logical AND).
`tagsOf` gives the tag names linked to a paper id. -/
def tagFilter (req : Option (List Str)) (tagsOf : Nat → List Str)
    (rows : List PaperRow) : List PaperRow :=
  match req with
  | none => rows
  | some ts => rows.filter (fun r => ts.all (fun t => (tagsOf r.id).contains t))

/-- Modelled from the spec (§2, §4.2): the tag filter is applied against
the record store before the title matcher runs. -/
def searchTitlesTagged (score : Str → Str → Nat) (q : Str)
    (req : Option (List Str)) (tagsOf : Nat → List Str)
    (rows : List PaperRow) : List PaperMatch :=
  fuzzy_search_papers score q (tagFilter req tagsOf rows)

/-- Modelled from the spec (§2, §4.2): the tag filter is applied against
the record store before the full-text matcher runs. -/
def searchPdfsTagged (env : PdfEnv) (q : Str) (req : Option (List Str))
    (tagsOf : Nat → List Str) (rows : List PaperRow) :
    Except Str (List PdfMatch) :=
  fuzzy_search_pdfs env q (tagFilter req tagsOf rows)

/-! ## Helper lemmas -/

theorem trim_sublist (l : Str) : List.Sublist (trim l) l := by
  have h1 : List.Sublist ((l.dropWhile isWS).reverse.dropWhile isWS)
      (l.dropWhile isWS).reverse := List.dropWhile_sublist _
  have h2 : List.Sublist (trim l) (l.dropWhile isWS) := by
    have := h1.reverse
    simpa [trim] using this
  exact h2.trans (List.dropWhile_sublist _)

theorem isWS_replaceNl_char (c : Char) :
    isWS (if c = '\n' then ' ' else c) = isWS c := by
  by_cases h : c = '\n'
  · subst h; decide
  · simp [h]

theorem trim_replaceNl (l : Str) : trim (replaceNl l) = replaceNl (trim l) := by
  have hpred : (isWS ∘ fun c => if c = '\n' then ' ' else c) = isWS := by
    funext c
    simpa using (isWS_replaceNl_char c)
  have hdrop : ∀ m : Str, (replaceNl m).dropWhile isWS = replaceNl (m.dropWhile isWS) := by
    intro m
    unfold replaceNl
    rw [List.dropWhile_map, hpred]
  have hrev : ∀ m : Str, replaceNl m.reverse = (replaceNl m).reverse := by
    intro m
    unfold replaceNl
    exact List.map_reverse _ _
  simp only [trim, hdrop, ← hrev]

theorem fuzzySearchPapersLoop_eq (score : Str → Str → Nat) (q : Str) :
    ∀ (rows : List PaperRow) (acc : List PaperMatch),
    fuzzySearchPapersLoop score q rows acc =
      acc ++ rows.filterMap (paperMatchOf score q) := by
  intro rows
  induction rows with
  | nil => intro acc; simp [fuzzySearchPapersLoop]
  | cons r rs ih =>
    intro acc
    cases h : paperMatchOf score q r with
    | some m => simp [fuzzySearchPapersLoop, h, ih]
    | none => simp [fuzzySearchPapersLoop, h, ih]

theorem fuzzy_search_papers_eq_filterMap (score : Str → Str → Nat) (q : Str)
    (rows : List PaperRow) :
    fuzzy_search_papers score q rows = rows.filterMap (paperMatchOf score q) := by
  simpa using fuzzySearchPapersLoop_eq score q rows []

theorem paperMatchOf_id {score : Str → Str → Nat} {q : Str} {r : PaperRow}
    {m : PaperMatch} (h : paperMatchOf score q r = some m) : m.id = r.id := by
  unfold paperMatchOf at h
  dsimp only at h
  split at h
  · split at h
    · injection h with h2
      rw [← h2]
    · cases h
  · cases h

/-! ## Claim theorems -/

/-- C5: every emitted excerpt is the first 120 Unicode scalar values of the
matched text, whitespace-trimmed, with every line-break replaced (the trim
and replace steps commute, so the excerpt also equals the spec's
trim-then-replace order), followed by the truncation suffix; its body
(excluding the suffix) holds at most 120 scalar values and no raw
line-break, for every input text. -/
theorem c5_excerpt_bounded_single_line : ∀ t : Str,
    (excerptBody t).length ≤ 120 ∧
    '\n' ∉ excerptBody t ∧
    excerptBody t = replaceNl (trim (t.take 120)) ∧
    excerptOf t = excerptBody t ++ "...".toList := by
  intro t
  refine ⟨?_, ?_, ?_, rfl⟩
  · have h1 := (trim_sublist (replaceNl (t.take 120))).length_le
    have h2 : (replaceNl (t.take 120)).length = (t.take 120).length :=
      List.length_map _ _
    have h3 : (t.take 120).length ≤ 120 := List.length_take_le _ _
    simp only [excerptBody]
    omega
  · intro hmem
    have hsub : '\n' ∈ replaceNl (t.take 120) :=
      (trim_sublist (replaceNl (t.take 120))).subset hmem
    rcases List.mem_map.mp hsub with ⟨c, _, hc⟩
    by_cases h : c = '\n'
    · rw [h, if_pos rfl] at hc
      exact absurd hc (by decide)
    · rw [if_neg h] at hc
      exact h hc
  · exact trim_replaceNl _

/-- C7: in title search a candidate contributes at most one match (the
result is a `filterMap` over the rows), a candidate with an empty derived
title contributes nothing, and a candidate whose title the fuzzy atom does
not accept (not every query character occurs in order, smart-cased)
contributes nothing — it is omitted, not scored zero. -/
theorem c7_title_skip_empty_and_nonmatching :
    ∀ (score : Str → Str → Nat) (q : Str) (rows : List PaperRow),
    fuzzy_search_papers score q rows = rows.filterMap (paperMatchOf score q) ∧
    (∀ r : PaperRow, derivedTitle r.canonical_base_path = [] →
      paperMatchOf score q r = none) ∧
    (∀ r : PaperRow, atomAccepts q (derivedTitle r.canonical_base_path) = false →
      paperMatchOf score q r = none) := by
  intro score q rows
  refine ⟨fuzzy_search_papers_eq_filterMap score q rows, ?_, ?_⟩
  · intro r h
    simp [paperMatchOf, h]
  · intro r h
    by_cases ht : derivedTitle r.canonical_base_path = []
    · simp [paperMatchOf, ht]
    · simp [paperMatchOf, ht, h]

/-- Witness for C7 at concrete inputs: the row stored at path `/` has an
empty derived title and yields no match; the row titled `gnn_survey_2021`
does not subsequence-match the query `attn` and yields no match. -/
theorem c7_witness :
    paperMatchOf (fun _ _ => 0) "attn".toList ⟨5, "/".toList, "u".toList⟩ = none ∧
    paperMatchOf (fun _ _ => 0) "attn".toList
      ⟨6, "/lib/gnn_survey_2021".toList, "u".toList⟩ = none :=
  ⟨(c7_title_skip_empty_and_nonmatching (fun _ _ => 0) "attn".toList []).2.1
      ⟨5, "/".toList, "u".toList⟩ (by decide),
   (c7_title_skip_empty_and_nonmatching (fun _ _ => 0) "attn".toList []).2.2
      ⟨6, "/lib/gnn_survey_2021".toList, "u".toList⟩ (by decide)⟩

/-- C10: the title search returns its matches in exactly the order the
record store yields rows — the result is the order-preserving `filterMap`
of the row sequence, and its id sequence is the id sequence of the
qualifying rows; no sort is applied. -/
theorem c10_title_results_in_store_order :
    ∀ (score : Str → Str → Nat) (q : Str) (rows : List PaperRow),
    fuzzy_search_papers score q rows = rows.filterMap (paperMatchOf score q) ∧
    (fuzzy_search_papers score q rows).map PaperMatch.id =
      (rows.filter (fun r => (paperMatchOf score q r).isSome)).map PaperRow.id := by
  intro score q rows
  refine ⟨fuzzy_search_papers_eq_filterMap score q rows, ?_⟩
  rw [fuzzy_search_papers_eq_filterMap]
  induction rows with
  | nil => rfl
  | cons r rs ih =>
    cases h : paperMatchOf score q r with
    | none => simpa [h] using ih
    | some m => simpa [h, paperMatchOf_id h] using ih

/-- C8: a candidate whose PDF asset is absent at its fixed relative path is
skipped silently — the whole full-text search is unchanged by deleting all
such rows, so an absent asset neither contributes matches nor fails the
search. -/
theorem c8_absent_pdf_skipped_silently :
    ∀ (env : PdfEnv) (q : Str) (rows : List PaperRow),
    fuzzy_search_pdfs env q rows =
      fuzzy_search_pdfs env q
        (rows.filter (fun r => env.pdfExists (pdfPathOf r.canonical_base_path))) := by
  intro env q rows
  unfold fuzzy_search_pdfs
  congr 1
  induction rows with
  | nil => rfl
  | cons r rs ih =>
    cases h : env.pdfExists (pdfPathOf r.canonical_base_path) with
    | true => simp [collectMatches, h, ih]
    | false => simp [collectMatches, processRow, h, ih]

theorem except_bind_ok {ε α β : Type} (a : α) (f : α → Except ε β) :
    (Except.ok a >>= f) = f a := rfl

theorem except_bind_error {ε α β : Type} (e : ε) (f : α → Except ε β) :
    ((Except.error e : Except ε α) >>= f) = Except.error e := rfl

theorem except_fmap_ok {ε α β : Type} (f : α → β) (a : α) :
    (f <$> (Except.ok a : Except ε α)) = Except.ok (f a) := rfl

theorem except_fmap_error {ε α β : Type} (f : α → β) (e : ε) :
    (f <$> (Except.error e : Except ε α)) = Except.error e := rfl

theorem except_map_ok {ε α β : Type} (f : α → β) (a : α) :
    Except.map f (Except.ok a : Except ε α) = Except.ok (f a) := rfl

theorem except_map_error {ε α β : Type} (f : α → β) (e : ε) :
    Except.map f (Except.error e : Except ε α) = Except.error e := rfl

theorem processRow_extract_error {env : PdfEnv} {q : Str} {r : PaperRow}
    {b : List Nat} {e : Str}
    (hex : env.pdfExists (pdfPathOf r.canonical_base_path) = true)
    (hrd : env.readPdf (pdfPathOf r.canonical_base_path) = .ok b)
    (het : env.extractText b = .error e) :
    processRow env q r = .error e := by
  simp [processRow, hex, hrd, het, except_bind_ok, except_bind_error,
    except_fmap_ok, except_fmap_error]

theorem collectMatches_isError {env : PdfEnv} {q : Str} {rows : List PaperRow}
    {r : PaperRow} {b : List Nat} {e : Str}
    (hr : r ∈ rows)
    (hex : env.pdfExists (pdfPathOf r.canonical_base_path) = true)
    (hrd : env.readPdf (pdfPathOf r.canonical_base_path) = .ok b)
    (het : env.extractText b = .error e) :
    ∃ msg, collectMatches env q rows = .error msg := by
  induction rows with
  | nil => cases hr
  | cons x xs ih =>
    rcases List.mem_cons.mp hr with h | h
    · subst h
      exact ⟨e, by
        simp [collectMatches, processRow_extract_error (q := q) hex hrd het,
          except_bind_error]⟩
    · cases hp : processRow env q x with
      | error msg => exact ⟨msg, by simp [collectMatches, hp, except_bind_error]⟩
      | ok ms =>
        rcases ih h with ⟨msg, hmsg⟩
        exact ⟨msg, by
          simp [collectMatches, hp, hmsg, except_bind_ok, except_fmap_error]⟩

/-- C6: if the PDF asset of any store row is present, its bytes are read,
and text extraction fails on them, the entire full-text search returns an
error — no partial results are returned for the other documents. -/
theorem c6_extraction_failure_fatal :
    ∀ (env : PdfEnv) (q : Str) (rows : List PaperRow) (r : PaperRow)
      (b : List Nat) (e : Str),
    r ∈ rows →
    env.pdfExists (pdfPathOf r.canonical_base_path) = true →
    env.readPdf (pdfPathOf r.canonical_base_path) = .ok b →
    env.extractText b = .error e →
    ∃ msg, fuzzy_search_pdfs env q rows = .error msg := by
  intro env q rows r b e hr hex hrd het
  rcases collectMatches_isError (q := q) hr hex hrd het with ⟨msg, hmsg⟩
  exact ⟨msg, by simp [fuzzy_search_pdfs, hmsg, except_map_error]⟩

/-- Witness for C6 at a concrete corpus of two rows whose extractor rejects
every byte stream: the whole search errors. -/
theorem c6_witness :
    ∃ msg,
      fuzzy_search_pdfs
        ⟨fun _ => true, fun _ => .ok [37, 80], fun _ => .error "malformed".toList⟩
        "q".toList
        [⟨1, "/lib/a".toList, "u".toList⟩, ⟨2, "/lib/b".toList, "u".toList⟩] =
      .error msg :=
  c6_extraction_failure_fatal
    ⟨fun _ => true, fun _ => .ok [37, 80], fun _ => .error "malformed".toList⟩
    "q".toList
    [⟨1, "/lib/a".toList, "u".toList⟩, ⟨2, "/lib/b".toList, "u".toList⟩]
    ⟨1, "/lib/a".toList, "u".toList⟩ [37, 80] "malformed".toList
    (by simp) rfl rfl rfl

theorem pageMatchesFrom_eq (q title : Str) :
    ∀ (ps : List Str) (i : Nat),
    pageMatchesFrom q title i ps =
      ((ps.enumFrom i).filter
        (fun ip => !(isBlank ip.2) && patternAccepts q ip.2)).map
        (fun ip => pageMatchMk title ip.1 ip.2) := by
  intro ps
  induction ps with
  | nil => intro i; rfl
  | cons p ps ih =>
    intro i
    cases hb : isBlank p with
    | true => simp [pageMatchesFrom, hb, ih]
    | false =>
      cases ha : patternAccepts q p with
      | true => simp [pageMatchesFrom, hb, ha, ih]
      | false => simp [pageMatchesFrom, hb, ha, ih]

theorem pageMatchesFrom_page_spec (q title : Str) :
    ∀ (ps : List Str) (i : Nat) (m : PdfMatch),
    m ∈ pageMatchesFrom q title i ps →
    ∃ j, j < ps.length ∧ m.page = i + j + 1 ∧
      isBlank (ps.getD j []) = false ∧
      patternAccepts q (ps.getD j []) = true := by
  intro ps
  induction ps with
  | nil => intro i m hm; cases hm
  | cons p ps ih =>
    intro i m hm
    rw [pageMatchesFrom] at hm
    rcases List.mem_append.mp hm with h | h
    · cases hb : isBlank p with
      | true => rw [if_pos hb] at h; cases h
      | false =>
        rw [if_neg ?hneg] at h
        case hneg => simp [hb]
        cases ha : patternAccepts q p with
        | false => rw [if_neg ?haneg] at h; cases h; case haneg => simp [ha]
        | true =>
          rw [if_pos ha] at h
          rcases List.mem_singleton.mp h with rfl
          exact ⟨0, by simp, by simp [pageMatchMk], by simpa using hb, by simpa using ha⟩
    · rcases ih (i + 1) m h with ⟨j, hj, hp, hblank, hacc⟩
      refine ⟨j + 1, ?_, by omega, by simpa using hblank, by simpa using hacc⟩
      simp only [List.length_cons]
      omega

/-- C9: a `PdfMatch` is emitted exactly for the non-blank, pattern-accepted
pages of the form-feed split of the extracted text, and it reports `page`
equal to the page's zero-based index in that split plus one — blank pages
are skipped but still advance the index. -/
theorem c9_page_number_is_split_index_succ :
    ∀ (q title out : Str),
    pageMatches q title out =
      (((splitCh '\x0c' out).enum).filter
        (fun ip => !(isBlank ip.2) && patternAccepts q ip.2)).map
        (fun ip => pageMatchMk title ip.1 ip.2) ∧
    ∀ m ∈ pageMatches q title out, ∃ i,
      i < (splitCh '\x0c' out).length ∧ m.page = i + 1 ∧
      isBlank ((splitCh '\x0c' out).getD i []) = false ∧
      patternAccepts q ((splitCh '\x0c' out).getD i []) = true := by
  intro q title out
  constructor
  · simpa [pageMatches, List.enum] using
      pageMatchesFrom_eq q title (splitCh '\x0c' out) 0
  · intro m hm
    rcases pageMatchesFrom_page_spec q title (splitCh '\x0c' out) 0 m hm with
      ⟨j, hj, hp, hb, ha⟩
    exact ⟨j, hj, by omega, hb, ha⟩

/-- Witness for C9 on the spec §8 scenario: pages
`["intro", "we use a transformer architecture", "conclusion"]` with query
`transformer`; the emitted match reports page 2. -/
theorem c9_witness :
    ∃ i,
      i < (splitCh '\x0c'
        "intro\x0cwe use a transformer architecture\x0cconclusion".toList).length ∧
      (⟨"t".toList, 2, 0, "we use a transformer architecture...".toList⟩ :
        PdfMatch).page = i + 1 ∧
      isBlank ((splitCh '\x0c'
        "intro\x0cwe use a transformer architecture\x0cconclusion".toList).getD i []) =
        false ∧
      patternAccepts "transformer".toList
        ((splitCh '\x0c'
          "intro\x0cwe use a transformer architecture\x0cconclusion".toList).getD i []) =
        true :=
  (c9_page_number_is_split_index_succ "transformer".toList "t".toList
      "intro\x0cwe use a transformer architecture\x0cconclusion".toList).2
    ⟨"t".toList, 2, 0, "we use a transformer architecture...".toList⟩ (by decide)

theorem pageMatchesFrom_score_zero (q title : Str) (ps : List Str) (i : Nat)
    {m : PdfMatch} (hm : m ∈ pageMatchesFrom q title i ps) : m.score = 0 := by
  rw [pageMatchesFrom_eq] at hm
  rcases List.mem_map.mp hm with ⟨ip, _, rfl⟩
  rfl

theorem processRow_score_zero {env : PdfEnv} {q : Str} {r : PaperRow}
    {ms : List PdfMatch} (h : processRow env q r = .ok ms) :
    ∀ m ∈ ms, m.score = 0 := by
  intro m hm
  unfold processRow at h
  cases hex : env.pdfExists (pdfPathOf r.canonical_base_path) with
  | false =>
    rw [if_neg (by simp [hex])] at h
    injection h with h2
    rw [← h2] at hm
    cases hm
  | true =>
    rw [if_pos hex] at h
    cases hrd : env.readPdf (pdfPathOf r.canonical_base_path) with
    | error e => rw [hrd, except_bind_error] at h; cases h
    | ok b =>
      rw [hrd, except_bind_ok] at h
      cases het : env.extractText b with
      | error e => rw [het, except_bind_error] at h; cases h
      | ok out =>
        rw [het, except_bind_ok] at h
        injection h with h2
        rw [← h2] at hm
        exact pageMatchesFrom_score_zero q _ _ 0 hm

theorem collectMatches_score_zero {env : PdfEnv} {q : Str} :
    ∀ {rows : List PaperRow} {ms : List PdfMatch},
    collectMatches env q rows = .ok ms → ∀ m ∈ ms, m.score = 0 := by
  intro rows
  induction rows with
  | nil =>
    intro ms h m hm
    injection h with h2
    rw [← h2] at hm
    cases hm
  | cons r rs ih =>
    intro ms h m hm
    rw [collectMatches] at h
    cases hp : processRow env q r with
    | error e => rw [hp, except_bind_error] at h; cases h
    | ok ms1 =>
      rw [hp, except_bind_ok] at h
      cases hc : collectMatches env q rs with
      | error e => rw [hc] at h; cases h
      | ok ms2 =>
        rw [hc] at h
        injection h with h2
        rw [← h2] at hm
        rcases List.mem_append.mp hm with h1 | h2m
        · exact processRow_score_zero hp m h1
        · exact ih hc m h2m

theorem insertDesc_of_zero {x : PdfMatch} {l : List PdfMatch}
    (hx : x.score = 0) (hl : ∀ m ∈ l, m.score = 0) :
    insertDesc x l = x :: l := by
  cases l with
  | nil => rfl
  | cons y ys =>
    have hy : y.score = 0 := hl y (by simp)
    rw [insertDesc, if_neg]
    omega

theorem sortByScoreDesc_of_zero :
    ∀ {l : List PdfMatch}, (∀ m ∈ l, m.score = 0) → sortByScoreDesc l = l := by
  intro l
  induction l with
  | nil => intro _; rfl
  | cons x xs ih =>
    intro h
    rw [sortByScoreDesc, ih (fun m hm => h m (by simp [hm]))]
    exact insertDesc_of_zero (h x (by simp)) (fun m hm => h m (by simp [hm]))

theorem pageMatchesFrom_page_gt (q title : Str) (ps : List Str) (i : Nat)
    {m : PdfMatch} (hm : m ∈ pageMatchesFrom q title i ps) : i < m.page := by
  rcases pageMatchesFrom_page_spec q title ps i m hm with ⟨j, _, hp, _, _⟩
  omega

theorem pageMatchesFrom_pairwise (q title : Str) :
    ∀ (ps : List Str) (i : Nat),
    List.Pairwise (fun a b => a.page < b.page) (pageMatchesFrom q title i ps) := by
  intro ps
  induction ps with
  | nil => intro i; exact List.Pairwise.nil
  | cons p ps ih =>
    intro i
    rw [pageMatchesFrom]
    apply List.pairwise_append.mpr
    refine ⟨?_, ih (i + 1), ?_⟩
    · split
      · exact List.Pairwise.nil
      · split
        · simp
        · exact List.Pairwise.nil
    · intro a ha b hb
      have hbp : i + 1 < b.page := pageMatchesFrom_page_gt q title ps (i + 1) hb
      have hap : a.page = i + 1 := by
        split at ha
        · cases ha
        · split at ha
          · rcases List.mem_singleton.mp ha with rfl
            rfl
          · cases ha
      omega

/-- C4: every `PdfMatch` the full-text search can return has score 0 (the
score field is hardcoded), so the final sort by descending score never
reorders anything — the returned list is the collected list itself, in
record-iteration order — and the matches of any single document carry
strictly increasing page numbers. -/
theorem c4_scores_zero_sort_never_reorders :
    ∀ (env : PdfEnv) (q : Str) (rows : List PaperRow),
    fuzzy_search_pdfs env q rows = collectMatches env q rows ∧
    (∀ ms, collectMatches env q rows = .ok ms → ∀ m ∈ ms, m.score = 0) ∧
    (∀ q2 t2 out2 : Str,
      List.Pairwise (fun a b => a.page < b.page) (pageMatches q2 t2 out2)) := by
  intro env q rows
  refine ⟨?_, fun ms h => collectMatches_score_zero h, ?_⟩
  · cases h : collectMatches env q rows with
    | error e => rw [fuzzy_search_pdfs, h, except_map_error]
    | ok ms =>
      rw [fuzzy_search_pdfs, h, except_map_ok,
        sortByScoreDesc_of_zero (collectMatches_score_zero h)]
  · intro q2 t2 out2
    exact pageMatchesFrom_pairwise q2 t2 (splitCh '\x0c' out2) 0

/-- Witness for C4 at a concrete one-row corpus whose single page matches:
the collected match indeed has score 0. -/
theorem c4_witness :
    (⟨"a".toList, 1, 0, "hello world...".toList⟩ : PdfMatch).score = 0 :=
  (c4_scores_zero_sort_never_reorders
      ⟨fun _ => true, fun _ => .ok [], fun _ => .ok "hello world".toList⟩
      "hello".toList [⟨1, "/lib/a".toList, "u".toList⟩]).2.1
    [⟨"a".toList, 1, 0, "hello world...".toList⟩] rfl
    ⟨"a".toList, 1, 0, "hello world...".toList⟩ (by decide)

theorem insertDesc_perm (x : PdfMatch) :
    ∀ l : List PdfMatch, List.Perm (insertDesc x l) (x :: l) := by
  intro l
  induction l with
  | nil => exact List.Perm.refl _
  | cons y ys ih =>
    rw [insertDesc]
    split
    · exact (ih.cons y).trans (List.Perm.swap x y ys)
    · exact List.Perm.refl _

theorem mem_insertDesc {m x : PdfMatch} {l : List PdfMatch} :
    m ∈ insertDesc x l ↔ m = x ∨ m ∈ l := by
  constructor
  · intro h
    have := (insertDesc_perm x l).mem_iff.mp h
    simpa using this
  · intro h
    apply (insertDesc_perm x l).mem_iff.mpr
    simpa using h

theorem insertDesc_pairwise {x : PdfMatch} {l : List PdfMatch}
    (hl : List.Pairwise (fun a b => b.score ≤ a.score) l) :
    List.Pairwise (fun a b => b.score ≤ a.score) (insertDesc x l) := by
  induction l with
  | nil => simp [insertDesc]
  | cons y ys ih =>
    rw [insertDesc]
    split
    · rename_i hgt
      rcases List.pairwise_cons.mp hl with ⟨hy, hys⟩
      refine List.pairwise_cons.mpr ⟨?_, ih hys⟩
      intro m hm
      rcases mem_insertDesc.mp hm with rfl | hm2
      · omega
      · exact hy m hm2
    · rename_i hle
      rcases List.pairwise_cons.mp hl with ⟨hy, _⟩
      refine List.pairwise_cons.mpr ⟨?_, hl⟩
      intro m hm
      rcases List.mem_cons.mp hm with rfl | hm2
      · omega
      · have := hy m hm2
        omega

theorem insertDesc_filter (x : PdfMatch) (s : Nat) :
    ∀ l : List PdfMatch,
    (insertDesc x l).filter (fun m => m.score == s) =
      if x.score == s then x :: l.filter (fun m => m.score == s)
      else l.filter (fun m => m.score == s) := by
  intro l
  induction l with
  | nil =>
    by_cases hx : x.score = s
    · have hx2 : (x.score == s) = true := by simpa using hx
      simp [insertDesc, List.filter, hx2, hx]
    · have hx2 : (x.score == s) = false := by simpa using hx
      simp [insertDesc, List.filter, hx2, hx]
  | cons y ys ih =>
    rw [insertDesc]
    split
    · rename_i hgt
      by_cases hx : x.score = s
      · have hy : (y.score == s) = false := by
          simp only [beq_eq_false_iff_ne, ne_eq]
          omega
        simp [List.filter, hy, ih, hx]
      · have hx2 : (x.score == s) = false := by simpa using hx
        simp [List.filter, ih, hx2]
    · by_cases hx : x.score = s
      · simp [List.filter, hx]
      · have hx2 : (x.score == s) = false := by simpa using hx
        simp [List.filter, hx2]

theorem sortByScoreDesc_sorted (l : List PdfMatch) :
    List.Pairwise (fun a b => b.score ≤ a.score) (sortByScoreDesc l) := by
  induction l with
  | nil => exact List.Pairwise.nil
  | cons x xs ih => exact insertDesc_pairwise ih

/-- The claim as the code violates it, at an explicit input: the store
yields the row with id 7 (stored at `/b`) before the row with id 3 (stored
at `/a`); both contribute one score-0 match, so the claimed tiebreak by
record id ascending requires the `/a` match first, but the search returns
the `/b` match first — ties follow store iteration order, not id order. -/
theorem c2_counterexample :
    fuzzy_search_pdfs
      ⟨fun _ => true, fun _ => .ok [], fun _ => .ok "match me".toList⟩
      "match".toList
      [⟨7, "/b".toList, "u".toList⟩, ⟨3, "/a".toList, "u".toList⟩] =
    .ok [⟨"b".toList, 1, 0, "match me...".toList⟩,
         ⟨"a".toList, 1, 0, "match me...".toList⟩] ∧
    ([⟨"b".toList, 1, 0, "match me...".toList⟩,
      ⟨"a".toList, 1, 0, "match me...".toList⟩] : List PdfMatch) ≠
      [⟨"a".toList, 1, 0, "match me...".toList⟩,
       ⟨"b".toList, 1, 0, "match me...".toList⟩] :=
  ⟨rfl, by decide⟩

/-- C2 amended: the result list is stable-sorted by descending score —
the sort permutes nothing away, yields descending scores, and preserves
the relative order of equal-score matches (so ties stay in the order the
matches were produced: record-iteration order, ascending page index within
a document), rather than being re-keyed by record id. -/
theorem c2_amended_stable_sort_by_score :
    ∀ l : List PdfMatch,
    List.Perm (sortByScoreDesc l) l ∧
    List.Pairwise (fun a b => b.score ≤ a.score) (sortByScoreDesc l) ∧
    (∀ s : Nat, (sortByScoreDesc l).filter (fun m => m.score == s) =
      l.filter (fun m => m.score == s)) := by
  intro l
  refine ⟨?_, sortByScoreDesc_sorted l, ?_⟩
  · induction l with
    | nil => exact List.Perm.refl _
    | cons x xs ih =>
      rw [sortByScoreDesc]
      exact (insertDesc_perm x (sortByScoreDesc xs)).trans (ih.cons x)
  · intro s
    induction l with
    | nil => rfl
    | cons x xs ih =>
      rw [sortByScoreDesc, insertDesc_filter]
      by_cases hx : x.score = s
      · have hx2 : (x.score == s) = true := by simpa using hx
        simp [List.filter, hx2, ih]
      · have hx2 : (x.score == s) = false := by simpa using hx
        simp [List.filter, hx2, ih]

/-- The claim as the code violates it, at an explicit input: one candidate
document whose extracted text splits into two non-blank pages constructs
two fuzzy matching engine instances — one per surviving page — not the
single shared instance the claim prescribes. -/
theorem c3_counterexample :
    engineInstances
      ⟨fun _ => true, fun _ => .ok [], fun _ => .ok "page one\x0cpage two".toList⟩
      [⟨1, "/lib/x".toList, "u".toList⟩] = .ok 2 ∧
    (2 : Nat) ≠ specSharedEngineCount :=
  ⟨rfl, by decide⟩

/-- C3 amended: during a full-text search a fresh fuzzy matching engine
instance is constructed for every page that survives the blank filter —
the total engine count equals the sum, over all processed documents, of
their surviving page counts (so it is one per page, not one shared across
the corpus). -/
theorem c3_amended_engine_per_surviving_page :
    ∀ (env : PdfEnv) (rows : List PaperRow),
    engineInstances env rows =
      (extractedTexts env rows).map
        (fun outs => (outs.map countSurviving).sum) := by
  intro env rows
  induction rows with
  | nil => rfl
  | cons r rs ih =>
    cases hex : env.pdfExists (pdfPathOf r.canonical_base_path) with
    | false =>
      cases hrest : engineInstances env rs with
      | error e =>
        rw [hrest] at ih
        simp [engineInstances, engineInstancesRow, extractedTexts, hex, hrest,
          except_bind_ok, except_bind_error, ← ih]
      | ok n =>
        rw [hrest] at ih
        simp [engineInstances, engineInstancesRow, extractedTexts, hex, hrest,
          except_bind_ok, ← ih]
    | true =>
      cases hrd : env.readPdf (pdfPathOf r.canonical_base_path) with
      | error e =>
        simp [engineInstances, engineInstancesRow, extractedTexts, hex, hrd,
          except_bind_error, except_map_error]
      | ok b =>
        cases het : env.extractText b with
        | error e =>
          simp [engineInstances, engineInstancesRow, extractedTexts, hex, hrd,
            het, except_bind_ok, except_bind_error, except_map_error]
        | ok out =>
          cases hrest : extractedTexts env rs with
          | error e =>
            have ih2 : engineInstances env rs = .error e := by
              rw [ih, hrest, except_map_error]
            simp [engineInstances, engineInstancesRow, extractedTexts, hex,
              hrd, het, hrest, ih2, except_bind_ok, except_bind_error,
              except_map_error]
          | ok outs =>
            have ih2 : engineInstances env rs =
                .ok ((outs.map countSurviving).sum) := by
              rw [ih, hrest, except_map_ok]
            simp [engineInstances, engineInstancesRow, extractedTexts, hex,
              hrd, het, hrest, ih2, except_bind_ok, except_map_ok]

/-- C1 (against the tag filter modelled from the spec, since the search
functions in the src/ snapshot take no tag parameter): for every corpus
and non-empty requested tag set, the candidate set is exactly the rows
linked to every requested tag name (logical AND); with no requested set
every row qualifies; and both tagged search pipelines run their matcher on
the already-filtered candidate set. -/
theorem c1_tag_filter_and_semantics :
    ∀ (ts : List Str) (tagsOf : Nat → List Str) (rows : List PaperRow),
    ts ≠ [] →
    ((∀ r : PaperRow, r ∈ tagFilter (some ts) tagsOf rows ↔
        r ∈ rows ∧ ∀ t ∈ ts, t ∈ tagsOf r.id) ∧
     tagFilter none tagsOf rows = rows ∧
     (∀ (score : Str → Str → Nat) (q : Str),
       searchTitlesTagged score q (some ts) tagsOf rows =
         fuzzy_search_papers score q (tagFilter (some ts) tagsOf rows)) ∧
     (∀ (env : PdfEnv) (q : Str),
       searchPdfsTagged env q (some ts) tagsOf rows =
         fuzzy_search_pdfs env q (tagFilter (some ts) tagsOf rows))) := by
  intro ts tagsOf rows _
  refine ⟨?_, rfl, fun _ _ => rfl, fun _ _ => rfl⟩
  intro r
  simp [tagFilter, List.mem_filter, List.all_eq_true]

/-- Witness for C1 at a concrete corpus: with requested tags
`{ml, nlp}`, the row whose paper carries both tags is in the candidate set
and membership is exactly the AND condition. -/
theorem c1_witness :
    (⟨1, "/lib/a".toList, "u".toList⟩ : PaperRow) ∈
      tagFilter (some ["ml".toList, "nlp".toList])
        (fun i => if i = 1 then ["ml".toList, "nlp".toList] else [])
        [⟨1, "/lib/a".toList, "u".toList⟩, ⟨2, "/lib/b".toList, "u".toList⟩] ↔
    (⟨1, "/lib/a".toList, "u".toList⟩ : PaperRow) ∈
      [(⟨1, "/lib/a".toList, "u".toList⟩ : PaperRow),
       ⟨2, "/lib/b".toList, "u".toList⟩] ∧
    ∀ t ∈ ["ml".toList, "nlp".toList],
      t ∈ (fun i => if i = 1 then ["ml".toList, "nlp".toList] else ([] : List Str))
        (⟨1, "/lib/a".toList, "u".toList⟩ : PaperRow).id :=
  (c1_tag_filter_and_semantics ["ml".toList, "nlp".toList]
      (fun i => if i = 1 then ["ml".toList, "nlp".toList] else [])
      [⟨1, "/lib/a".toList, "u".toList⟩, ⟨2, "/lib/b".toList, "u".toList⟩]
      (by simp)).1
    ⟨1, "/lib/a".toList, "u".toList⟩

end Papr
